import Mathlib

/-!
# Verification of the copycat expansion-and-materialization engine

A shallow embedding of the core of `main.go` of quintans/copycat:
the YAML-like value model, the path-segment expander (`expandPath`,
`resolveKeyPathWithContext`, `isScalar`), the content renderer
(`renderContent`, over bodies pre-parsed into literal and field-reference
parts; the general template engine is an external collaborator modelled by
its documented `missingkey=error` behaviour), and the tree walker
(`CopyCat.ProcessDir`), over an abstract output storage in which paths are
lists of segments and `filepath.Join` of one extra segment is list append.
-/

namespace Copycat

/-- The generic value tree produced by YAML unmarshalling into `map[string]any`:
string-keyed maps (as association lists with unique keys), ordered sequences,
and scalars.  Floating-point scalars are omitted from the embedding. -/
inductive Value where
  | str (s : String)
  | int (n : Int)
  | bool (b : Bool)
  | null
  | map (entries : List (String × Value))
  | seq (items : List Value)

/-- Go map lookup `v[key]` on the association-list representation. -/
def lookupEntry : List (String × Value) → String → Option Value
  | [], _ => none
  | (k, v) :: rest, key => if k = key then some v else lookupEntry rest key

/-- `isScalar` from main.go: strings, integers, floats and booleans are
scalar; maps, slices and nil are not. -/
def isScalar : Value → Bool
  | .str _ => true
  | .int _ => true
  | .bool _ => true
  | _ => false

/-- `pathContext` from main.go: a resolved result together with the context
(the map or array element) it was selected from. -/
structure pathContext where
  result : Value
  ctx : Value

theorem lookupEntry_sizeOf {m : List (String × Value)} {key : String} {v : Value}
    (h : lookupEntry m key = some v) : sizeOf v < sizeOf (Value.map m) := by
  induction m with
  | nil => simp [lookupEntry] at h
  | cons e rest ih =>
    obtain ⟨k, w⟩ := e
    simp only [lookupEntry] at h
    split at h
    · cases h
      simp
      omega
    · have := ih h
      simp at this ⊢
      omega

mutual
/-- `resolveKeyPathWithContext` from main.go: walks the context along the
dotted key path; a map consumes one component by key lookup (the parent
context becoming that map), a sequence broadcasts the whole remaining key
path over every element, anything else resolves to nothing. -/
def resolveKeyPathWithContext (parent data : Value) (keys : List String) :
    List pathContext :=
  match keys with
  | [] => [⟨data, parent⟩]
  | key :: rest =>
    match data with
    | .map m =>
      match h : lookupEntry m key with
      | some val => resolveKeyPathWithContext (.map m) val rest
      | none => []
    | .seq items => resolveSeq parent items (key :: rest)
    | _ => []
termination_by sizeOf data
decreasing_by
  · exact lookupEntry_sizeOf h
  · simp

/-- The `[]any` loop of `resolveKeyPathWithContext`: appends the resolutions
of each element in order. -/
def resolveSeq (parent : Value) (items : List Value) (keys : List String) :
    List pathContext :=
  match items with
  | [] => []
  | item :: rest =>
    resolveKeyPathWithContext parent item keys ++ resolveSeq parent rest keys
termination_by sizeOf items
decreasing_by
  · simp only [List.cons.sizeOf_spec]
    omega
  · simp only [List.cons.sizeOf_spec]
    omega
end

/-- The ASCII white-space characters recognised by Go's `unicode.IsSpace`
(the embedding restricts itself to ASCII input). -/
def isSpaceChar (c : Char) : Bool :=
  c = ' ' || c = '\t' || c = '\n' || c = Char.ofNat 11 || c = Char.ofNat 12 || c = '\r'

/-- Go `strings.TrimSpace` on ASCII text: drop leading and trailing
white-space characters. -/
def trimSpaceL (s : List Char) : List Char :=
  ((s.dropWhile isSpaceChar).reverse.dropWhile isSpaceChar).reverse

/-- Go `strings.Split(s, ".")`: split at every dot, keeping empty pieces. -/
def splitOnDot : List Char → List (List Char)
  | [] => [[]]
  | c :: rest =>
    if c = '.' then [] :: splitOnDot rest
    else
      match splitOnDot rest with
      | g :: gs => (c :: g) :: gs
      | [] => [[c]]

/-- Go `strings.ReplaceAll`: replace every non-overlapping occurrence of
`pat` in `s` by `rep`, scanning left to right. -/
def replaceAllL (s pat rep : List Char) : List Char :=
  match s with
  | [] => []
  | c :: rest =>
    if h : pat ≠ [] ∧ pat.isPrefixOf (c :: rest) then
      rep ++ replaceAllL ((c :: rest).drop pat.length) pat rep
    else
      c :: replaceAllL rest pat rep
termination_by s.length
decreasing_by
  · have hlen : pat.length ≠ 0 := by
      intro hz
      exact h.1 (List.eq_nil_of_length_eq_zero hz)
    simp only [List.length_drop, List.length_cons]
    omega
  · simp only [List.length_cons]
    omega

/-- String wrapper for `replaceAllL` (Go `strings.ReplaceAll`). -/
def replaceAll (s pat rep : String) : String :=
  ⟨replaceAllL s.toList pat.toList rep.toList⟩

/-- String wrapper for `trimSpaceL` (Go `strings.TrimSpace`). -/
def trimSpace (s : String) : String :=
  ⟨trimSpaceL s.toList⟩

/-- Go `strings.TrimSuffix`: remove one final occurrence of `suffix`, if
present. -/
def trimSuffixL (s sfx : List Char) : List Char :=
  if sfx.isSuffixOf s then s.take (s.length - sfx.length) else s

/-- The scan performed by `regexp.FindAllStringSubmatch` with the pattern
used in `expandPath` (`\{\{\s*([^}]+)\s*\}\}`): each match is the full
placeholder text `{{…}}` paired with the raw text between the braces (the
Go capture excludes leading white space, but `expandPath` trims every
key-path component afterwards, so carrying the raw run is equivalent).
A `{{` that is not followed by a non-empty brace-free run and a closing
`}}` matches nothing, and scanning resumes one character later. -/
def findPlaceholdersAux : List Char → List (String × String)
  | [] => []
  | '{' :: '{' :: body =>
    let run := body.takeWhile (fun ch => ch ≠ '}')
    let dropped := body.dropWhile (fun ch => ch ≠ '}')
    if run ≠ [] ∧ dropped.take 2 = ['}', '}'] then
      (⟨'{' :: '{' :: (run ++ ['}', '}'])⟩, ⟨run⟩) :: findPlaceholdersAux (dropped.drop 2)
    else findPlaceholdersAux ('{' :: body)
  | _ :: rest => findPlaceholdersAux rest
termination_by s => s.length
decreasing_by
  · have hd : (body.dropWhile (fun ch => ch ≠ '}')).length ≤ body.length :=
      (List.dropWhile_sublist (l := body) (fun ch => ch ≠ '}')).length_le
    simp only [List.length_drop, List.length_cons]
    omega
  · simp only [List.length_cons]
    omega
  · simp only [List.length_cons]
    omega

/-- All placeholder matches of a path segment. -/
def findPlaceholders (s : String) : List (String × String) :=
  findPlaceholdersAux s.toList

/-- The key path of one placeholder: split the captured expression on dots
and trim white space from every component, as `expandPath` does. -/
def keyPathOf (capture : String) : List String :=
  (splitOnDot capture.toList).map (fun cs => trimSpace ⟨cs⟩)

/-- `fmt.Sprint` as applied by `expandPath`, which only ever prints values
that satisfy `isScalar`; the formatting of the non-scalar cases belongs to
the external `fmt` library and is unreachable behind that guard. -/
def sprint : Value → String
  | .str s => s
  | .int n => toString n
  | .bool b => if b then "true" else "false"
  | _ => "<nonscalar>"

/-- `expandedPath` from main.go: one expansion result, the rendered segment
text plus the context it carries. -/
structure expandedPath where
  value : String
  ctx : Value

/-- The body of `expandPath`'s loop over the matches: expand every
accumulated candidate by each resolution of the placeholder's key path.
A scalar result substitutes the placeholder text (`strings.ReplaceAll` with
`fmt.Sprint`); a non-scalar result keeps the candidate's text; either way
the new candidate carries the resolution's context.  A candidate whose
resolution is empty contributes nothing (`continue`). -/
def expandOnce (cands : List expandedPath) (m : String × String) : List expandedPath :=
  cands.flatMap (fun cand =>
    (resolveKeyPathWithContext cand.ctx cand.ctx (keyPathOf m.2)).map
      (fun v =>
        if isScalar v.result then
          ⟨replaceAll cand.value m.1 (sprint v.result), v.ctx⟩
        else
          ⟨cand.value, v.ctx⟩))

/-- `expandPath` from main.go: finds all `{{…}}` placeholders in the
segment, and folds `expandOnce` over them left to right starting from the
literal segment.  The `error` result mirrors the Go signature
`([]expandedPath, error)`; no code path produces it. -/
def expandPath (path : String) (ctx : Value) : Except String (List expandedPath) :=
  let ms := findPlaceholders path
  if ms = [] then
    .ok [⟨path, ctx⟩]
  else
    .ok (ms.foldl expandOnce [⟨path, ctx⟩])

/-! ## Content renderer

`renderContent` in main.go hands the file body to Go `text/template` with
`Option("missingkey=error")`, a `root` accessor for the top-level model, and
the sprig function map, and propagates any execution error.  The template
engine itself is an external collaborator: bodies are embedded already
parsed, as sequences of literal runs and field references (`{{ .a.b }}` and
`{{ root.a.b }}`); its function library and control structures are outside
the model.  Field access follows the engine's documented behaviour: looking
up a missing key of a map is an error under `missingkey=error`, and a field
access on a non-map value is an execution error. -/

/-- One part of a pre-parsed template body. -/
inductive TmplPart where
  | lit (s : String)
  | field (path : List String)
  | rootField (path : List String)

/-- A pre-parsed template body. -/
abbrev Tmpl := List TmplPart

/-- Chained field access of the template engine under `missingkey=error`. -/
def fieldChain : Value → List String → Except String Value
  | v, [] => .ok v
  | .map m, k :: rest =>
    match lookupEntry m k with
    | some v' => fieldChain v' rest
    | none => .error ("map has no entry for key " ++ k)
  | _, k :: _ => .error ("can't evaluate field " ++ k)

/-- Evaluate one body part to its rendered text. -/
def evalPart (root ctx : Value) : TmplPart → Except String String
  | .lit s => .ok s
  | .field ks => (fieldChain ctx ks).map sprint
  | .rootField ks => (fieldChain root ks).map sprint

/-- Execute a body left to right, concatenating rendered parts and stopping
at the first error, as `Template.Execute` does. -/
def renderTmpl (root : Value) (body : Tmpl) (ctx : Value) : Except String String :=
  match body with
  | [] => .ok ""
  | p :: rest =>
    match evalPart root ctx p with
    | .error e => .error e
    | .ok s =>
      match renderTmpl root rest ctx with
      | .error e => .error e
      | .ok s' => .ok (s ++ s')

/-! ## Output storage

The abstract output storage collaborator (afero in the source).  Paths are
lists of segments relative to the run's output root; `filepath.Join` of the
current output path with one expanded segment is modelled as appending that
segment.  The storage is a finite list of (path, node) entries with unique
paths. -/

/-- A node of the output storage. -/
inductive FsNode where
  | dir
  | file (content : String)
deriving DecidableEq

/-- A path below the output root. -/
abbrev Path := List String

/-- The output storage state. -/
abbrev Fs := List (Path × FsNode)

/-- Look up the node stored at a path. -/
def lookupFs : Fs → Path → Option FsNode
  | [], _ => none
  | (q, n) :: rest, p => if q = p then some n else lookupFs rest p

/-- `afero.Exists`: true when a file or directory exists at the path. -/
def existsPath (fs : Fs) (p : Path) : Bool :=
  (lookupFs fs p).isSome

/-- `Remove`: delete the entry stored at a path. -/
def removePath (fs : Fs) (p : Path) : Fs :=
  fs.filter (fun e => e.1 ≠ p)

/-- The number of entries `ReadDir` lists directly below a path. -/
def childCount (fs : Fs) (p : Path) : Nat :=
  (fs.filter (fun e => e.1.length = p.length + 1 ∧ p.isPrefixOf e.1)).length

/-- `MkdirAll`: create every missing directory along the path (the output
root itself exists for the whole run). -/
def mkdirAll (fs : Fs) (p : Path) : Fs :=
  (List.range p.length).foldl
    (fun acc i =>
      let q := p.take (i + 1)
      if existsPath acc q then acc else acc ++ [(q, .dir)])
    fs

/-- `afero.WriteFile`: replace whatever the path stored by a file with the
given content (the storage is observed only through `lookupFs`, so the
entry's position in the listing is immaterial). -/
def writeFile (fs : Fs) (p : Path) (content : String) : Fs :=
  removePath fs p ++ [(p, .file content)]

/-- Go `strings.TrimSuffix(outPath, ".tmpl")` on the joined output path:
with separator-free segments the suffix lies in the last segment. -/
def stripTmpl : Path → Path
  | [] => []
  | [s] => [⟨trimSuffixL s.toList ".tmpl".toList⟩]
  | s :: rest => s :: stripTmpl rest

/-! ## Tree walker -/

/-- One entry of the template tree, as listed by `ReadDir` on the template
storage: a file with a pre-parsed body, or a directory with its own entries
(kept in the listing's deterministic order). -/
inductive TEntry where
  | file (name : String) (body : Tmpl)
  | dir (name : String) (entries : List TEntry)

/-- `entry.Name()`. -/
def TEntry.name : TEntry → String
  | .file n _ => n
  | .dir n _ => n

/-- The `CopyCat` engine state from main.go: the root model and the dry-run
flag.  The template and output storages and the custom function map are the
external collaborators, passed to the operations explicitly. -/
structure CopyCat where
  Model : List (String × Value)
  DryRun : Bool

/-- `CopyCat.renderContent`: render a body with the current context as dot
and the root model behind the `root` accessor, failing fast on unresolved
references (`missingkey=error`). -/
def CopyCat.renderContent (cc : CopyCat) (body : Tmpl) (ctx : Value) :
    Except String String :=
  renderTmpl (.map cc.Model) body ctx

mutual
/-- `CopyCat.ProcessDir` from main.go, over the entry list of the current
template directory: expand each entry's name, and process every expansion
in order, threading the output storage state. -/
def CopyCat.ProcessDir (cc : CopyCat) (entries : List TEntry) (outPath : Path)
    (ctx : Value) (fs : Fs) : Except String Fs :=
  match entries with
  | [] => .ok fs
  | e :: rest =>
    match expandPath e.name ctx with
    | .error err => .error err
    | .ok expanded =>
      match cc.processItems e expanded outPath fs with
      | .error err => .error err
      | .ok fs' => cc.ProcessDir rest outPath ctx fs'
termination_by (sizeOf entries, 0, 0)

/-- The `for _, item := range expanded` loop of `ProcessDir`. -/
def CopyCat.processItems (cc : CopyCat) (e : TEntry) (items : List expandedPath)
    (outPath : Path) (fs : Fs) : Except String Fs :=
  match items with
  | [] => .ok fs
  | item :: rest =>
    match cc.processItem e item outPath fs with
    | .error err => .error err
    | .ok fs' => cc.processItems e rest outPath fs'
termination_by (sizeOf e, 1, items.length)

/-- The body of the expansion loop of `ProcessDir`: for a directory, create
the output directory (unless dry-run), recurse with the expansion's context,
and afterwards (unless dry-run) remove the just-processed output directory
if it has no children; for a file, render the body with the expansion's
context, and on empty content skip it and delete any previous-run file at
the output path, otherwise strip a `.tmpl` suffix and write the content
(dry-run only reports). -/
def CopyCat.processItem (cc : CopyCat) (e : TEntry) (item : expandedPath)
    (outPath : Path) (fs : Fs) : Except String Fs :=
  match e with
  | .dir _ children =>
    match cc.ProcessDir children (outPath ++ [item.value]) item.ctx
        (if cc.DryRun then fs else mkdirAll fs (outPath ++ [item.value])) with
    | .error err => .error err
    | .ok fs2 =>
      if cc.DryRun then .ok fs2
      else if childCount fs2 (outPath ++ [item.value]) = 0 then
        .ok (removePath fs2 (outPath ++ [item.value]))
      else .ok fs2
  | .file _ body =>
    match cc.renderContent body item.ctx with
    | .error err => .error err
    | .ok content =>
      if content = "" then
        if cc.DryRun then .ok fs
        else if existsPath fs (outPath ++ [item.value]) then
          .ok (removePath fs (outPath ++ [item.value]))
        else .ok fs
      else if cc.DryRun then .ok fs
      else .ok (writeFile fs (stripTmpl (outPath ++ [item.value])) content)
termination_by (sizeOf e, 0, 0)
end

/-! ## Unfolding lemmas for the recursive definitions -/

theorem resolve_nil (parent data : Value) :
    resolveKeyPathWithContext parent data [] = [⟨data, parent⟩] := by
  simp [resolveKeyPathWithContext]

theorem resolve_map_cons (parent : Value) (m : List (String × Value)) (key : String)
    (rest : List String) (val : Value) (hlk : lookupEntry m key = some val) :
    resolveKeyPathWithContext parent (.map m) (key :: rest) =
      resolveKeyPathWithContext (.map m) val rest := by
  simp only [resolveKeyPathWithContext]
  split
  · rename_i val' h'
    rw [hlk] at h'
    cases h'
    rfl
  · rename_i h'
    rw [hlk] at h'
    cases h'

theorem resolve_seq_cons (parent : Value) (items : List Value) (key : String)
    (rest : List String) :
    resolveKeyPathWithContext parent (.seq items) (key :: rest) =
      resolveSeq parent items (key :: rest) := by
  simp [resolveKeyPathWithContext]

theorem resolveSeq_nil (parent : Value) (keys : List String) :
    resolveSeq parent [] keys = [] := by
  simp [resolveSeq]

theorem resolveSeq_cons (parent : Value) (item : Value) (rest : List Value)
    (keys : List String) :
    resolveSeq parent (item :: rest) keys =
      resolveKeyPathWithContext parent item keys ++ resolveSeq parent rest keys := by
  simp [resolveSeq]

theorem expandOnce_nil (m : String × String) : expandOnce [] m = [] := rfl

theorem expandOnce_singleton (cand : expandedPath) (m : String × String) :
    expandOnce [cand] m =
      (resolveKeyPathWithContext cand.ctx cand.ctx (keyPathOf m.2)).map
        (fun v =>
          if isScalar v.result then
            ⟨replaceAll cand.value m.1 (sprint v.result), v.ctx⟩
          else
            ⟨cand.value, v.ctx⟩) := by
  simp [expandOnce]

theorem foldl_expandOnce_nil (ms : List (String × String)) :
    ms.foldl expandOnce [] = [] := by
  induction ms with
  | nil => rfl
  | cons m rest ih => rw [List.foldl_cons, expandOnce_nil, ih]

/-- `expandPath` never returns an error: every code path of the Go function
returns a nil error. -/
theorem expandPath_isOk (path : String) (ctx : Value) :
    ∃ l, expandPath path ctx = .ok l := by
  unfold expandPath
  dsimp only
  split
  · exact ⟨_, rfl⟩
  · exact ⟨_, rfl⟩

/-- When the segment's first placeholder resolves to nothing, the seed
candidate is dropped and every later placeholder folds over an empty
candidate list, so `expandPath` returns the empty expansion list with a nil
error. -/
theorem expandPath_head_unresolved (path : String) (ctx : Value)
    (m : String × String) (ms : List (String × String))
    (hm : findPlaceholders path = m :: ms)
    (hr : resolveKeyPathWithContext ctx ctx (keyPathOf m.2) = []) :
    expandPath path ctx = .ok [] := by
  unfold expandPath
  rw [hm]
  have h1 : expandOnce [⟨path, ctx⟩] m = [] := by
    rw [expandOnce_singleton]
    simp [hr]
  simp [h1, foldl_expandOnce_nil]

/-- A segment with exactly one placeholder expands to the single
`expandOnce` step applied to the literal seed. -/
theorem expandPath_single_match (path : String) (ctx : Value) (m : String × String)
    (hm : findPlaceholders path = [m]) :
    expandPath path ctx = .ok (expandOnce [⟨path, ctx⟩] m) := by
  unfold expandPath
  rw [hm]
  simp

/-- Broadcasting one key over a sequence whose elements are all maps holding
that key yields one branch per element, in order, with the element as the
branch's context and the looked-up value as its result. -/
theorem resolveSeq_forall2 (parent : Value) (items : List Value) (k : String)
    (h : ∀ it ∈ items, ∃ mi vi, it = Value.map mi ∧ lookupEntry mi k = some vi) :
    List.Forall₂
      (fun pc it => pc.ctx = it ∧
        ∃ mi, it = Value.map mi ∧ lookupEntry mi k = some pc.result)
      (resolveSeq parent items [k]) items := by
  induction items with
  | nil =>
    rw [resolveSeq_nil]
    exact List.Forall₂.nil
  | cons it rest ih =>
    obtain ⟨mi, vi, rfl, hlk⟩ := h it (by simp)
    have hrest := ih (fun x hx => h x (by simp [hx]))
    rw [resolveSeq_cons, resolve_map_cons _ _ _ _ _ hlk, resolve_nil]
    exact List.Forall₂.cons ⟨rfl, mi, rfl, hlk⟩ hrest

/-! ## Frame lemmas for the output storage -/

theorem lookupFs_append_none (fs1 fs2 : Fs) (p : Path)
    (h : lookupFs fs1 p = none) :
    lookupFs (fs1 ++ fs2) p = lookupFs fs2 p := by
  induction fs1 with
  | nil => rfl
  | cons e rest ih =>
    obtain ⟨q, n⟩ := e
    simp only [lookupFs] at h
    by_cases hq : q = p
    · simp [hq] at h
    · simp only [List.cons_append, lookupFs, if_neg hq]
      exact ih (by simpa [if_neg hq] using h)

theorem lookupFs_append_some (fs1 fs2 : Fs) (p : Path) (n : FsNode)
    (h : lookupFs fs1 p = some n) :
    lookupFs (fs1 ++ fs2) p = some n := by
  induction fs1 with
  | nil => cases h
  | cons e rest ih =>
    obtain ⟨q, m⟩ := e
    simp only [lookupFs] at h
    by_cases hq : q = p
    · simp only [List.cons_append, lookupFs, if_pos hq]
      simpa [if_pos hq] using h
    · simp only [List.cons_append, lookupFs, if_neg hq]
      exact ih (by simpa [if_neg hq] using h)

theorem lookupFs_removePath_self (fs : Fs) (p : Path) :
    lookupFs (removePath fs p) p = none := by
  induction fs with
  | nil => rfl
  | cons e rest ih =>
    obtain ⟨q, n⟩ := e
    unfold removePath at ih ⊢
    rw [List.filter_cons]
    by_cases hq : q = p
    · subst hq
      simpa using ih
    · simpa [lookupFs, hq] using ih

theorem lookupFs_removePath_other (fs : Fs) (p q : Path) (hq : q ≠ p) :
    lookupFs (removePath fs p) q = lookupFs fs q := by
  induction fs with
  | nil => rfl
  | cons e rest ih =>
    obtain ⟨r, n⟩ := e
    unfold removePath at ih ⊢
    rw [List.filter_cons]
    by_cases hr : r = p
    · subst hr
      simpa [lookupFs, Ne.symm hq] using ih
    · by_cases hrq : r = q
      · subst hrq
        simp [lookupFs, hr]
      · simpa [lookupFs, hr, hrq] using ih

theorem lookupFs_writeFile_self (fs : Fs) (p : Path) (c : String) :
    lookupFs (writeFile fs p c) p = some (.file c) := by
  unfold writeFile
  rw [lookupFs_append_none _ _ _ (lookupFs_removePath_self fs p)]
  simp [lookupFs]

theorem lookupFs_writeFile_other (fs : Fs) (p q : Path) (c : String) (hq : q ≠ p) :
    lookupFs (writeFile fs p c) q = lookupFs fs q := by
  unfold writeFile
  rcases h : lookupFs (removePath fs p) q with _ | n
  · rw [lookupFs_append_none _ _ _ h]
    rw [lookupFs_removePath_other fs p q hq] at h
    simp [lookupFs, Ne.symm hq, h]
  · rw [lookupFs_append_some _ _ _ _ h]
    rw [lookupFs_removePath_other fs p q hq] at h
    exact h.symm

set_option maxHeartbeats 1000000 in
/-- In dry-run mode no branch of the walker touches the output storage:
every successful run returns it unchanged, and a failing run aborts before
any mutation. -/
theorem dryRun_helper (cc : CopyCat) (entries : List TEntry) (outPath : Path) (ctx : Value) (fs : Fs) :
    cc.DryRun = true →
    (cc.ProcessDir entries outPath ctx fs = .ok fs ∨
      ∃ err, cc.ProcessDir entries outPath ctx fs = .error err) := by
  induction entries, outPath, ctx, fs using CopyCat.ProcessDir.induct
  case cc => exact cc
  case motive2 =>
    rename_i e items p f
    exact cc.DryRun = true →
      (cc.processItems e items p f = .ok f ∨
        ∃ err, cc.processItems e items p f = .error err)
  case motive3 =>
    rename_i e item p f
    exact cc.DryRun = true →
      (cc.processItem e item p f = .ok f ∨
        ∃ err, cc.processItem e item p f = .error err)
  case case1 =>
    intro hd
    exact Or.inl (by simp [CopyCat.ProcessDir])
  case case2 =>
    rename_i p c f e rest err herr
    intro hd
    exact Or.inr ⟨err, by simp [CopyCat.ProcessDir, herr]⟩
  case case3 =>
    rename_i p c f e rest expanded hexp err herr ih2
    intro hd
    exact Or.inr ⟨err, by simp [CopyCat.ProcessDir, hexp, herr]⟩
  case case4 =>
    rename_i p c f e rest expanded hexp fs' hok ih2 ih1
    intro hd
    have hred : cc.ProcessDir (e :: rest) p c f = cc.ProcessDir rest p c fs' := by
      simp [CopyCat.ProcessDir, hexp, hok]
    rcases ih2 hd with h | ⟨err2, h⟩
    · have hfs : fs' = f := Except.ok.inj (h.symm.trans hok).symm
      subst hfs
      rw [hred]
      exact ih1 hd
    · exact Except.noConfusion (h.symm.trans hok)
  case case5 =>
    rename_i e p f
    intro hd
    exact Or.inl (by simp [CopyCat.processItems])
  case case6 =>
    rename_i e p f item rest err herr ih3
    intro hd
    exact Or.inr ⟨err, by simp [CopyCat.processItems, herr]⟩
  case case7 =>
    rename_i e p f item rest fs' hok ih3 ih2
    intro hd
    have hred : cc.processItems e (item :: rest) p f = cc.processItems e rest p fs' := by
      simp [CopyCat.processItems, hok]
    rcases ih3 hd with h | ⟨err3, h⟩
    · have hfs : fs' = f := Except.ok.inj (h.symm.trans hok).symm
      subst hfs
      rw [hred]
      exact ih2 hd
    · exact Except.noConfusion (h.symm.trans hok)
  case case8 =>
    rename_i item p f name children err herr ih1
    intro hd
    simp only [hd, dite_true] at herr
    exact Or.inr ⟨err, by simp [CopyCat.processItem, hd, herr]⟩
  case case9 =>
    rename_i item p f name children fs' hok hd2 ih1
    intro hd
    have ih := ih1 hd
    simp only [hd, dite_true] at hok ih
    rcases ih with h | ⟨err1, h⟩
    · have hfs : fs' = f := Except.ok.inj (h.symm.trans hok).symm
      subst hfs
      exact Or.inl (by simp [CopyCat.processItem, hd, hok])
    · exact Except.noConfusion (h.symm.trans hok)
  case case10 =>
    rename_i item p f name children fs' hok hnd hcnt ih1
    intro hd
    exact absurd hd hnd
  case case11 =>
    rename_i item p f name children fs' hok hnd hcnt ih1
    intro hd
    exact absurd hd hnd
  case case12 =>
    rename_i item p f name body err herr
    intro hd
    exact Or.inr ⟨err, by simp [CopyCat.processItem, herr]⟩
  case case13 =>
    rename_i item p f name body hd2 hok
    intro hd
    exact Or.inl (by simp [CopyCat.processItem, hd, hok])
  case case14 =>
    rename_i item p f name body hnd hex hok
    intro hd
    exact absurd hd hnd
  case case15 =>
    rename_i item p f name body hnd hex hok
    intro hd
    exact absurd hd hnd
  case case16 =>
    rename_i item p f name body s' hok hs hd2
    intro hd
    exact Or.inl (by simp [CopyCat.processItem, hd, hok, hs])
  case case17 =>
    rename_i item p f name body s' hok hs hnd
    intro hd
    exact absurd hd hnd

/-! ## Claims about the segment expander -/

/-- C10: expandPath never fails: for every segment string and context it
returns a nil error, and a placeholder whose expression matches nothing in
the context silently yields zero expansions rather than an error or a
literal copy of the placeholder text. -/
theorem C10_expandPath_never_errors :
    (∀ (path : String) (ctx : Value), ∃ l, expandPath path ctx = .ok l) ∧
      expandPath "{{ nonexistent }}" (.map [("projectName", .str "TestApp")]) = .ok [] := by
  constructor
  · exact expandPath_isOk
  · simp [expandPath, expandOnce, findPlaceholders, findPlaceholdersAux, keyPathOf,
      splitOnDot, trimSpace, trimSpaceL, isSpaceChar, resolveKeyPathWithContext,
      lookupEntry, List.dropWhile, List.takeWhile, decide_not]

/-- C2 counterexample: a placeholder whose dotted path matches nothing does
not trigger any fallback template evaluation: expandPath succeeds with an
empty expansion list and never returns an error, contradicting the claimed
structured error. -/
theorem C2_counterexample_no_fallback_error :
    expandPath "{{ undefinedRef }}" (.map [("projectName", .str "Demo")]) = .ok [] ∧
      ∀ err, expandPath "{{ undefinedRef }}" (.map [("projectName", .str "Demo")]) ≠
        .error err := by
  have h : expandPath "{{ undefinedRef }}" (.map [("projectName", .str "Demo")]) = .ok [] := by
    simp [expandPath, expandOnce, findPlaceholders, findPlaceholdersAux, keyPathOf,
      splitOnDot, trimSpace, trimSpaceL, isSpaceChar, resolveKeyPathWithContext,
      lookupEntry, List.dropWhile, List.takeWhile, decide_not]
  refine ⟨h, fun err he => ?_⟩
  rw [h] at he
  cases he

/-- C2 (amended): when a segment's first placeholder expression resolves to
no branch at all, expandPath performs no fallback template evaluation and
reports no error: it returns a nil error together with zero expansions. -/
theorem C2_unmatched_expression_yields_ok_empty (path : String) (ctx : Value)
    (m : String × String) (ms : List (String × String))
    (hm : findPlaceholders path = m :: ms)
    (hr : resolveKeyPathWithContext ctx ctx (keyPathOf m.2) = []) :
    expandPath path ctx = .ok [] ∧ ∀ err, expandPath path ctx ≠ .error err := by
  have h := expandPath_head_unresolved path ctx m ms hm hr
  refine ⟨h, fun err he => ?_⟩
  rw [h] at he
  cases he

theorem C2_witness :
    expandPath "{{ absent }}" (.map [("present", .int 1)]) = .ok [] :=
  (C2_unmatched_expression_yields_ok_empty "{{ absent }}" (.map [("present", .int 1)])
    ("{{ absent }}", " absent ") []
    (by simp [findPlaceholders, findPlaceholdersAux, List.dropWhile, List.takeWhile,
      decide_not])
    (by simp [keyPathOf, splitOnDot, trimSpace, trimSpaceL, isSpaceChar,
      resolveKeyPathWithContext, lookupEntry])).1

/-- C4 counterexample: a component that parses as a non-negative integer
does not index into a sequence.  With xs = ["a", "b"], the claim predicts
that the placeholder xs.0 selects the first element; the code instead
broadcasts the component "0" over the elements (which are not maps), so the
expansion is empty.  A map-shaped element carrying the literal key "0" is
matched by broadcast instead. -/
theorem C4_counterexample_numeric_component_not_index :
    expandPath "{{ xs.0 }}" (.map [("xs", .seq [.str "a", .str "b"])]) = .ok [] ∧
      expandPath "{{ xs.0 }}" (.map [("xs", .seq [.map [("0", .str "z")]])]) =
        .ok [⟨"z", .map [("0", .str "z")]⟩] := by
  constructor
  · simp [expandPath, expandOnce, findPlaceholders, findPlaceholdersAux, keyPathOf,
      splitOnDot, trimSpace, trimSpaceL, isSpaceChar, resolveKeyPathWithContext,
      resolveSeq, lookupEntry, List.dropWhile, List.takeWhile, decide_not]
  · simp [expandPath, findPlaceholders, findPlaceholdersAux, keyPathOf, splitOnDot,
      trimSpace, trimSpaceL, isSpaceChar, resolveKeyPathWithContext, resolveSeq,
      lookupEntry, List.dropWhile, List.takeWhile, decide_not, expandOnce, isScalar,
      replaceAll, replaceAllL, sprint]

/-- C4 (amended): every component applied to a sequence — numeric or not —
is broadcast over the elements: when all elements are map-shaped and hold
the component as a literal key, resolution yields one branch per element in
order, each branch's context being that element and its result the value
stored under the key. -/
theorem C4_sequence_broadcast_uniform (parent : Value) (items : List Value) (k : String)
    (helts : ∀ it ∈ items, ∃ mi vi, it = Value.map mi ∧ lookupEntry mi k = some vi) :
    List.Forall₂
      (fun pc it => pc.ctx = it ∧
        ∃ mi, it = Value.map mi ∧ lookupEntry mi k = some pc.result)
      (resolveKeyPathWithContext parent (.seq items) [k]) items := by
  rw [resolve_seq_cons]
  exact resolveSeq_forall2 parent items k helts

theorem C4_witness :
    List.Forall₂
      (fun pc it => pc.ctx = it ∧
        ∃ mi, it = Value.map mi ∧ lookupEntry mi "0" = some pc.result)
      (resolveKeyPathWithContext .null (.seq [.map [("0", .str "z")]]) ["0"])
      [.map [("0", .str "z")]] := by
  refine C4_sequence_broadcast_uniform .null [.map [("0", .str "z")]] "0" ?_
  intro it hit
  rw [List.mem_singleton] at hit
  subst hit
  exact ⟨[("0", .str "z")], .str "z", rfl, rfl⟩

/-- C5: a single placeholder resolving by broadcast over a sequence of
length N (all elements map-shaped and holding the accessed key) expands to
exactly N results, the i-th carrying the i-th element as its context, in
the sequence's original order. -/
theorem C5_broadcast_length_order_context
    (seg : String) (m : String × String) (M : List (String × Value))
    (k1 k2 : String) (items : List Value)
    (hm : findPlaceholders seg = [m])
    (hk : keyPathOf m.2 = [k1, k2])
    (hseq : lookupEntry M k1 = some (.seq items))
    (helts : ∀ it ∈ items, ∃ mi vi, it = Value.map mi ∧ lookupEntry mi k2 = some vi) :
    ∃ l, expandPath seg (.map M) = .ok l ∧
      l.length = items.length ∧
      List.Forall₂ (fun s it => s.ctx = it) l items := by
  have h2 := resolveSeq_forall2 (.map M) items k2 helts
  have hres : resolveKeyPathWithContext (.map M) (.map M) (keyPathOf m.2) =
      resolveSeq (.map M) items [k2] := by
    rw [hk, resolve_map_cons _ _ _ _ _ hseq, resolve_seq_cons]
  refine ⟨_, by rw [expandPath_single_match seg (.map M) m hm, expandOnce_singleton], ?_, ?_⟩
  · rw [List.length_map]
    rw [show (⟨seg, Value.map M⟩ : expandedPath).ctx = Value.map M from rfl, hres]
    exact h2.length_eq
  · rw [show (⟨seg, Value.map M⟩ : expandedPath).ctx = Value.map M from rfl, hres]
    rw [List.forall₂_map_left_iff]
    refine h2.imp ?_
    intro pc it h
    by_cases hs : isScalar pc.result <;> simp [hs, h.1]

theorem C5_witness :
    ∃ l, expandPath "{{ features.name }}"
        (.map [("features", .seq
          [.map [("name", .str "users")], .map [("name", .str "orders")]])]) = .ok l ∧
      l.length = ([.map [("name", .str "users")], .map [("name", .str "orders")]] :
        List Value).length ∧
      List.Forall₂ (fun s it => s.ctx = it) l
        [.map [("name", .str "users")], .map [("name", .str "orders")]] := by
  refine C5_broadcast_length_order_context "{{ features.name }}"
    ("{{ features.name }}", " features.name ") _ "features" "name" _ ?_ ?_ rfl ?_
  · simp [findPlaceholders, findPlaceholdersAux, List.dropWhile, List.takeWhile, decide_not]
  · simp [keyPathOf, splitOnDot, trimSpace, trimSpaceL, isSpaceChar]
  · intro it hit
    rw [List.mem_cons, List.mem_singleton] at hit
    rcases hit with rfl | rfl
    · exact ⟨[("name", .str "users")], .str "users", rfl, rfl⟩
    · exact ⟨[("name", .str "orders")], .str "orders", rfl, rfl⟩

/-- C9 counterexample: a placeholder resolving to a single non-scalar value
does leave the rendered text unchanged, but the branch's context does not
become that resolved value: for the placeholder owner the context stays the
enclosing map rather than becoming the owner object. -/
theorem C9_counterexample_context_not_resolved_value :
    expandPath "{{ owner }}" (.map [("owner", .map [("name", .str "Alice")])]) =
      .ok [⟨"{{ owner }}", .map [("owner", .map [("name", .str "Alice")])]⟩] ∧
      Value.map [("owner", .map [("name", .str "Alice")])] ≠
        Value.map [("name", .str "Alice")] := by
  constructor
  · simp [expandPath, findPlaceholders, findPlaceholdersAux, keyPathOf, splitOnDot,
      trimSpace, trimSpaceL, isSpaceChar, resolveKeyPathWithContext, lookupEntry,
      expandOnce, isScalar, List.dropWhile, List.takeWhile, decide_not]
  · simp

/-- C9 (amended): a single-branch resolution substitutes scalar results
textually in place of the placeholder; a non-scalar result leaves the
rendered text unchanged; in both cases the branch's context becomes the
context carried by the resolution (the map or element the value was
selected from), not the resolved value itself. -/
theorem C9_scalar_substitutes_nonscalar_keeps_text
    (seg : String) (m : String × String) (ctx v c : Value)
    (hm : findPlaceholders seg = [m])
    (hr : resolveKeyPathWithContext ctx ctx (keyPathOf m.2) = [⟨v, c⟩]) :
    expandPath seg ctx =
      .ok [⟨if isScalar v then replaceAll seg m.1 (sprint v) else seg, c⟩] := by
  rw [expandPath_single_match seg ctx m hm, expandOnce_singleton]
  by_cases hs : isScalar v <;> simp [hr, hs]

theorem C9_witness :
    expandPath "{{ projectName }}" (.map [("projectName", .str "Demo")]) =
      .ok [⟨"Demo", .map [("projectName", .str "Demo")]⟩] := by
  have h := C9_scalar_substitutes_nonscalar_keeps_text "{{ projectName }}"
    ("{{ projectName }}", " projectName ") (.map [("projectName", .str "Demo")])
    (.str "Demo") (.map [("projectName", .str "Demo")])
    (by simp [findPlaceholders, findPlaceholdersAux, List.dropWhile, List.takeWhile,
      decide_not])
    (by simp [keyPathOf, splitOnDot, trimSpace, trimSpaceL, isSpaceChar,
      resolveKeyPathWithContext, lookupEntry])
  simpa [isScalar, replaceAll, replaceAllL, sprint] using h

/-! ## Claims about the renderer and the walker -/

/-- Helper for C8: executing a body that contains a failing field reference
fails, whichever part fails first. -/
theorem renderTmpl_error_of_bad_field (root : Value) (body : Tmpl) (ctx : Value)
    (ks : List String) (hmem : TmplPart.field ks ∈ body)
    (hund : ∃ e0, fieldChain ctx ks = .error e0) :
    ∃ e, renderTmpl root body ctx = .error e := by
  induction body with
  | nil => cases hmem
  | cons p rest ih =>
    rcases List.mem_cons.mp hmem with rfl | hmem'
    · obtain ⟨e0, he0⟩ := hund
      exact ⟨e0, by simp [renderTmpl, evalPart, he0, Except.map]⟩
    · cases hp : evalPart root ctx p with
      | error e => exact ⟨e, by simp [renderTmpl, hp]⟩
      | ok s =>
        obtain ⟨e, hrec⟩ := ih hmem'
        exact ⟨e, by simp [renderTmpl, hp, hrec]⟩

/-- C8: a template body referencing a field that is undefined in the
supplied context makes renderContent fail fast with an error; it never
succeeds, so no blank text is silently substituted for the unresolvable
reference. -/
theorem C8_undefined_reference_fails (cc : CopyCat) (body : Tmpl) (ctx : Value)
    (ks : List String) (hmem : TmplPart.field ks ∈ body)
    (hund : ∃ e0, fieldChain ctx ks = .error e0) :
    (∃ e, cc.renderContent body ctx = .error e) ∧
      ∀ s, cc.renderContent body ctx ≠ .ok s := by
  obtain ⟨e, he⟩ := renderTmpl_error_of_bad_field (.map cc.Model) body ctx ks hmem hund
  refine ⟨⟨e, he⟩, fun s hs => ?_⟩
  rw [CopyCat.renderContent] at hs
  rw [he] at hs
  cases hs

theorem C8_witness :
    (∃ e, CopyCat.renderContent ⟨[("x", .str "y")], false⟩
        [.lit "a", .field ["missing"]] (.map [("name", .str "n")]) = .error e) ∧
      ∀ s, CopyCat.renderContent ⟨[("x", .str "y")], false⟩
        [.lit "a", .field ["missing"]] (.map [("name", .str "n")]) ≠ .ok s :=
  C8_undefined_reference_fails ⟨[("x", .str "y")], false⟩
    [.lit "a", .field ["missing"]] (.map [("name", .str "n")]) ["missing"]
    (by simp) ⟨"map has no entry for key missing", rfl⟩

/-- One-step unfolding lemmas for the walker, used to evaluate concrete
runs without expanding the recursion wholesale. -/
theorem processDir_nil (cc : CopyCat) (outPath : Path) (ctx : Value) (fs : Fs) :
    cc.ProcessDir [] outPath ctx fs = .ok fs := by
  simp [CopyCat.ProcessDir]

theorem processDir_cons_ok (cc : CopyCat) (e : TEntry) (rest : List TEntry)
    (outPath : Path) (ctx : Value) (fs : Fs) (expanded : List expandedPath) (fs1 : Fs)
    (h1 : expandPath e.name ctx = .ok expanded)
    (h2 : cc.processItems e expanded outPath fs = .ok fs1) :
    cc.ProcessDir (e :: rest) outPath ctx fs = cc.ProcessDir rest outPath ctx fs1 := by
  simp [CopyCat.ProcessDir, h1, h2]

theorem processItems_nil (cc : CopyCat) (e : TEntry) (outPath : Path) (fs : Fs) :
    cc.processItems e [] outPath fs = .ok fs := by
  simp [CopyCat.processItems]

theorem processItems_cons_ok (cc : CopyCat) (e : TEntry) (item : expandedPath)
    (rest : List expandedPath) (outPath : Path) (fs : Fs) (fs1 : Fs)
    (h : cc.processItem e item outPath fs = .ok fs1) :
    cc.processItems e (item :: rest) outPath fs = cc.processItems e rest outPath fs1 := by
  simp [CopyCat.processItems, h]

/-- The dir branch of the walker in a non-dry run, in the case in which the
just-processed output directory has no children: it is removed, whether or
not this run created it. -/
theorem processItem_dir_removed (cc : CopyCat) (name : String) (children : List TEntry)
    (item : expandedPath) (outPath : Path) (fs fs2 : Fs)
    (hd : cc.DryRun = false)
    (hrec : cc.ProcessDir children (outPath ++ [item.value]) item.ctx
        (mkdirAll fs (outPath ++ [item.value])) = .ok fs2)
    (hcnt : childCount fs2 (outPath ++ [item.value]) = 0) :
    cc.processItem (.dir name children) item outPath fs =
      .ok (removePath fs2 (outPath ++ [item.value])) := by
  simp [CopyCat.processItem, hd, hrec, hcnt]

/-- The file branch of the walker in a non-dry run, for a body rendering to
the empty string with no previous-run file at the output path: nothing is
written and the storage is unchanged. -/
theorem processItem_file_empty_skip (cc : CopyCat) (name : String) (body : Tmpl)
    (item : expandedPath) (outPath : Path) (fs : Fs)
    (hd : cc.DryRun = false)
    (hr : cc.renderContent body item.ctx = .ok "")
    (hex : existsPath fs (outPath ++ [item.value]) = false) :
    cc.processItem (.file name body) item outPath fs = .ok fs := by
  simp [CopyCat.processItem, hd, hr, hex]

/-- Helper for C6: an entry whose name expands to zero results is skipped
entirely by the walker; processing continues with the remaining entries on
an untouched storage. -/
theorem processDir_skip_entry (cc : CopyCat) (e : TEntry) (rest : List TEntry)
    (outPath : Path) (ctx : Value) (fs : Fs)
    (h : expandPath e.name ctx = .ok []) :
    cc.ProcessDir (e :: rest) outPath ctx fs = cc.ProcessDir rest outPath ctx fs := by
  simp [CopyCat.ProcessDir, h, CopyCat.processItems]

/-- C6: a placeholder whose dotted path broadcasts over an empty sequence
(at least one component remains when the empty sequence is reached) expands
to zero results with a nil error, and the walker then performs no
processing at all for that entry: no directories or files are created under
the branch, the storage and the remaining traversal being exactly those of
the run without that entry. -/
theorem C6_empty_sequence_prunes_branch
    (seg : String) (m : String × String) (ms : List (String × String))
    (M : List (String × Value)) (k : String) (ks : List String)
    (hm : findPlaceholders seg = m :: ms)
    (hk : keyPathOf m.2 = k :: ks) (hks : ks ≠ [])
    (hseq : lookupEntry M k = some (.seq [])) :
    expandPath seg (.map M) = .ok [] ∧
    ∀ (cc : CopyCat) (e : TEntry) (rest : List TEntry) (outPath : Path) (fs : Fs),
      e.name = seg →
      cc.ProcessDir (e :: rest) outPath (.map M) fs = cc.ProcessDir rest outPath (.map M) fs := by
  have hres : resolveKeyPathWithContext (.map M) (.map M) (keyPathOf m.2) = [] := by
    rw [hk, resolve_map_cons _ _ _ _ _ hseq]
    cases ks with
    | nil => exact absurd rfl hks
    | cons k2 ks' => rw [resolve_seq_cons, resolveSeq_nil]
  have h1 := expandPath_head_unresolved seg (.map M) m ms hm hres
  refine ⟨h1, fun cc e rest outPath fs hname => ?_⟩
  exact processDir_skip_entry cc e rest outPath (.map M) fs (hname.symm ▸ h1)

theorem C6_witness :
    expandPath "{{ features.name }}" (.map [("features", .seq [])]) = .ok [] ∧
      CopyCat.ProcessDir ⟨[], false⟩
          [.dir "{{ features.name }}" [.file "x.txt" [.lit "hello"]]] []
          (.map [("features", .seq [])]) [(["keep"], .dir)] =
        CopyCat.ProcessDir ⟨[], false⟩ [] [] (.map [("features", .seq [])])
          [(["keep"], .dir)] := by
  have H := C6_empty_sequence_prunes_branch "{{ features.name }}"
    ("{{ features.name }}", " features.name ") [] [("features", .seq [])]
    "features" ["name"]
    (by simp [findPlaceholders, findPlaceholdersAux, List.dropWhile, List.takeWhile,
      decide_not])
    (by simp [keyPathOf, splitOnDot, trimSpace, trimSpaceL, isSpaceChar])
    (by simp) rfl
  exact ⟨H.1, H.2 ⟨[], false⟩ (.dir "{{ features.name }}" [.file "x.txt" [.lit "hello"]])
    [] [] [(["keep"], .dir)] rfl⟩

/-- C7: in dry-run mode the walker performs no mutation of the output
storage: a run that completes returns the storage it was given, unchanged
(no directory creations, no file writes, no removals), and a failing run
aborts before any mutation. -/
theorem C7_dry_run_leaves_storage_unchanged (cc : CopyCat) (entries : List TEntry)
    (outPath : Path) (ctx : Value) (fs : Fs) (hd : cc.DryRun = true) :
    cc.ProcessDir entries outPath ctx fs = .ok fs ∨
      ∃ err, cc.ProcessDir entries outPath ctx fs = .error err :=
  dryRun_helper cc entries outPath ctx fs hd

theorem C7_witness :
    CopyCat.ProcessDir ⟨[("projectName", .str "Demo")], true⟩
        [.dir "docs" [.file "a.txt" [.lit "hi"]]] [] (.map [("projectName", .str "Demo")])
        [(["old"], .file "stale")] = .ok [(["old"], .file "stale")] ∨
      ∃ err, CopyCat.ProcessDir ⟨[("projectName", .str "Demo")], true⟩
        [.dir "docs" [.file "a.txt" [.lit "hi"]]] [] (.map [("projectName", .str "Demo")])
        [(["old"], .file "stale")] = .error err :=
  C7_dry_run_leaves_storage_unchanged ⟨[("projectName", .str "Demo")], true⟩
    [.dir "docs" [.file "a.txt" [.lit "hi"]]] [] (.map [("projectName", .str "Demo")])
    [(["old"], .file "stale")] rfl

/-- C3 counterexample: a rendered body consisting only of white space is
not skipped.  The body renders to a single space, whose trimmed form is
empty, yet the walker writes the file instead of skipping it. -/
theorem C3_counterexample_whitespace_only_written :
    renderTmpl (.map []) [.lit " "] (.map []) = .ok " " ∧
      trimSpace " " = "" ∧
      CopyCat.ProcessDir ⟨[], false⟩ [.file "f.txt" [.lit " "]] [] (.map []) [] =
        .ok [(["f.txt"], .file " ")] := by
  refine ⟨rfl, rfl, ?_⟩
  simp [CopyCat.ProcessDir, CopyCat.processItems, CopyCat.processItem, CopyCat.renderContent,
    renderTmpl, evalPart, expandPath, findPlaceholders, findPlaceholdersAux, TEntry.name,
    writeFile, removePath, stripTmpl, trimSuffixL, existsPath, lookupFs, List.dropWhile,
    List.takeWhile, decide_not]
  decide

/-- C3 (amended): for a file entry in a non-dry run, only an exactly empty
rendered body is skipped: then nothing is stored at the entry's output path
(a file there from a previous run is deleted) and every other path is
untouched; any non-empty body — white-space-only included — is written at
the output path with the .tmpl suffix stripped, every other path untouched. -/
theorem C3_empty_content_skips_and_deletes_else_writes
    (cc : CopyCat) (name : String) (body : Tmpl) (item : expandedPath)
    (outPath : Path) (fs : Fs) (content : String)
    (hdry : cc.DryRun = false)
    (hr : cc.renderContent body item.ctx = .ok content) :
    ∃ fs', cc.processItem (.file name body) item outPath fs = .ok fs' ∧
      (content = "" →
        lookupFs fs' (outPath ++ [item.value]) = none ∧
        ∀ p, p ≠ outPath ++ [item.value] → lookupFs fs' p = lookupFs fs p) ∧
      (content ≠ "" →
        lookupFs fs' (stripTmpl (outPath ++ [item.value])) = some (.file content) ∧
        ∀ p, p ≠ stripTmpl (outPath ++ [item.value]) → lookupFs fs' p = lookupFs fs p) := by
  by_cases hc : content = ""
  · subst hc
    by_cases hex : existsPath fs (outPath ++ [item.value])
    · refine ⟨removePath fs (outPath ++ [item.value]), ?_, fun _ => ?_, fun hne => absurd rfl hne⟩
      · simp [CopyCat.processItem, hr, hdry, hex]
      · exact ⟨lookupFs_removePath_self fs _, fun p hp => lookupFs_removePath_other fs _ p hp⟩
    · refine ⟨fs, ?_, fun _ => ?_, fun hne => absurd rfl hne⟩
      · simp [CopyCat.processItem, hr, hdry, hex]
      · refine ⟨?_, fun p hp => rfl⟩
        cases hl : lookupFs fs (outPath ++ [item.value]) with
        | none => rfl
        | some n => exact absurd (by simp [existsPath, hl]) hex
  · refine ⟨writeFile fs (stripTmpl (outPath ++ [item.value])) content, ?_,
      fun h0 => absurd h0 hc, fun _ => ?_⟩
    · simp [CopyCat.processItem, hr, hdry, hc]
    · exact ⟨lookupFs_writeFile_self _ _ _, fun p hp => lookupFs_writeFile_other _ _ _ _ hp⟩

theorem C3_witness :
    ∃ fs', CopyCat.processItem ⟨[], false⟩ (.file "w.txt.tmpl" [.lit "hi"])
        ⟨"w.txt.tmpl", .null⟩ [] [] = .ok fs' ∧
      ("hi" = "" →
        lookupFs fs' ([] ++ [(⟨"w.txt.tmpl", Value.null⟩ : expandedPath).value]) = none ∧
        ∀ p, p ≠ [] ++ [(⟨"w.txt.tmpl", Value.null⟩ : expandedPath).value] →
          lookupFs fs' p = lookupFs [] p) ∧
      ("hi" ≠ "" →
        lookupFs fs' (stripTmpl ([] ++ [(⟨"w.txt.tmpl", Value.null⟩ : expandedPath).value])) =
          some (.file "hi") ∧
        ∀ p, p ≠ stripTmpl ([] ++ [(⟨"w.txt.tmpl", Value.null⟩ : expandedPath).value]) →
          lookupFs fs' p = lookupFs [] p) :=
  C3_empty_content_skips_and_deletes_else_writes ⟨[], false⟩ "w.txt.tmpl" [.lit "hi"]
    ⟨"w.txt.tmpl", .null⟩ [] [] "hi" rfl rfl

/-- C1: the post-order cleanup is gated only on the just-processed output
directory being empty, with no record of whether this run created it.  A
directory that existed in the output storage before the run — here mydir,
empty and colliding with a template directory whose single file renders
empty — is deleted by the run, although the run created nothing: the final
storage is empty. -/
theorem C1_run_removes_preexisting_empty_dir :
    lookupFs [(["mydir"], FsNode.dir)] ["mydir"] = some .dir ∧
      CopyCat.ProcessDir ⟨[], false⟩ [.dir "mydir" [.file "empty.tmpl" []]] []
        (.map []) [(["mydir"], .dir)] = .ok [] := by
  refine ⟨rfl, ?_⟩
  have e1 : expandPath "mydir" (.map []) = .ok [⟨"mydir", .map []⟩] := by
    simp [expandPath, findPlaceholders, findPlaceholdersAux]
  have e2 : expandPath "empty.tmpl" (.map []) = .ok [⟨"empty.tmpl", .map []⟩] := by
    simp [expandPath, findPlaceholders, findPlaceholdersAux]
  have hfile : CopyCat.processItem ⟨[], false⟩ (.file "empty.tmpl" [])
      ⟨"empty.tmpl", .map []⟩ ["mydir"] [(["mydir"], .dir)] = .ok [(["mydir"], .dir)] :=
    processItem_file_empty_skip ⟨[], false⟩ "empty.tmpl" [] ⟨"empty.tmpl", .map []⟩
      ["mydir"] [(["mydir"], .dir)] rfl rfl rfl
  have hinner : CopyCat.ProcessDir ⟨[], false⟩ [.file "empty.tmpl" []] ["mydir"]
      (.map []) [(["mydir"], .dir)] = .ok [(["mydir"], .dir)] := by
    rw [processDir_cons_ok ⟨[], false⟩ (.file "empty.tmpl" []) [] ["mydir"] (.map [])
        [(["mydir"], .dir)] [⟨"empty.tmpl", .map []⟩] [(["mydir"], .dir)] e2 ?_,
      processDir_nil]
    rw [processItems_cons_ok ⟨[], false⟩ (.file "empty.tmpl" []) ⟨"empty.tmpl", .map []⟩
        [] ["mydir"] [(["mydir"], .dir)] [(["mydir"], .dir)] hfile,
      processItems_nil]
  have hdir : CopyCat.processItem ⟨[], false⟩ (.dir "mydir" [.file "empty.tmpl" []])
      ⟨"mydir", .map []⟩ [] [(["mydir"], .dir)] = .ok [] :=
    processItem_dir_removed ⟨[], false⟩ "mydir" [.file "empty.tmpl" []]
      ⟨"mydir", .map []⟩ [] [(["mydir"], .dir)] [(["mydir"], .dir)] rfl hinner rfl
  rw [processDir_cons_ok ⟨[], false⟩ (.dir "mydir" [.file "empty.tmpl" []]) [] []
      (.map []) [(["mydir"], .dir)] [⟨"mydir", .map []⟩] [] e1 ?_,
    processDir_nil]
  rw [processItems_cons_ok ⟨[], false⟩ (.dir "mydir" [.file "empty.tmpl" []])
      ⟨"mydir", .map []⟩ [] [] [(["mydir"], .dir)] [] hdir,
    processItems_nil]

end Copycat
